import Mathlib

/-!
Verification of the RAG pipeline of the interactive-pdf-rag-chatbot repository.

Text is modelled as `List Char` (JS strings are sequences of UTF-16 code
units; all characters the code inspects are in the BMP, where the two views
agree).  Pure functions of the source are translated directly; external
collaborators (the pdf parser, the embedding service, the filesystem, the
LLM endpoint, JSON.parse) are modelled as explicit inputs or oracle
parameters, mirroring how the source consumes their results.
-/

namespace PdfRag

/-- Whitespace as used by JS `String.prototype.trim` and the regex class `\s`:
ASCII whitespace, NBSP, BOM and the Unicode space separators. -/
def isWS (c : Char) : Bool :=
  c == ' ' || c == '\t' || c == '\n' || c == '\x0b' || c == '\x0c' || c == '\r' ||
  c == '\u00a0' || c == '\u1680' ||
  (0x2000 ≤ c.toNat && c.toNat ≤ 0x200a) ||
  c == '\u2028' || c == '\u2029' || c == '\u202f' || c == '\u205f' ||
  c == '\u3000' || c == '\ufeff'

/-- The non-whitespace characters of a text, in order.  This is the content
that the page segmenter may only split or merge, never reorder. -/
def nonWS (s : List Char) : List Char := s.filter (fun c => !isWS c)

/-- JS `String.prototype.trim`: strip leading and trailing whitespace. -/
def jsTrim (s : List Char) : List Char :=
  ((s.dropWhile isWS).reverse.dropWhile isWS).reverse

/-- JS `String.prototype.substring(i, j)` for `i ≤ j` (the only way the
source calls it): the characters at positions `[i, j)`. -/
def sub (t : List Char) (i j : Nat) : List Char := (t.drop i).take (j - i)

/-- JS `Math.max(...l)` for a nonempty list of naturals. -/
def maxOfList (l : List Nat) : Nat := l.foldr max 0

/-- JS `Math.min(...l)` for a nonempty list of naturals. -/
def minOfList : List Nat → Nat
  | [] => 0
  | a :: t => t.foldl min a

/-- One iteration of the too-few-pages loop of `adjustToPageCount`
(ingestion.ts): split the longest page at its character midpoint.
JS: `result[maxIndex] = toSplit.substring(0, midPoint);
splice(maxIndex + 1, 0, toSplit.substring(midPoint))`. -/
def growStep (l : List (List Char)) : List (List Char) :=
  let lens := l.map List.length
  let maxIdx := lens.indexOf (maxOfList lens)
  let toSplit := l.getD maxIdx []
  let mid := toSplit.length / 2
  l.take maxIdx ++ toSplit.take mid :: toSplit.drop mid :: l.drop (maxIdx + 1)

/-- One iteration of the too-many-pages loop of `adjustToPageCount`
(ingestion.ts): merge the shortest page into its following neighbour, or
into the preceding one when it is the final page, with a single separating
space. -/
def shrinkStep (l : List (List Char)) : List (List Char) :=
  let lens := l.map List.length
  let minIdx := lens.indexOf (minOfList lens)
  if minIdx < l.length - 1 then
    l.take minIdx ++ (l.getD minIdx [] ++ ' ' :: l.getD (minIdx + 1) []) :: l.drop (minIdx + 2)
  else
    l.take (minIdx - 1) ++ [l.getD (minIdx - 1) [] ++ ' ' :: l.getD minIdx []]

/-- The `while (result.length < targetCount)` loop of `adjustToPageCount`.
Each iteration grows the list by one, so `target` is enough fuel; the JS
loop terminates for exactly the same reason. -/
def adjustGrow (target : Nat) : Nat → List (List Char) → List (List Char)
  | 0, l => l
  | fuel + 1, l => if l.length < target then adjustGrow target fuel (growStep l) else l

/-- The `while (result.length > targetCount)` loop of `adjustToPageCount`.
Each iteration shrinks the list by one, so the starting length is enough
fuel. -/
def adjustShrink (target : Nat) : Nat → List (List Char) → List (List Char)
  | 0, l => l
  | fuel + 1, l => if target < l.length then adjustShrink target fuel (shrinkStep l) else l

/-- `adjustToPageCount` from ingestion.ts: force the page list to exactly
`target` entries by repeatedly bisecting the longest page (too few) or
merging the shortest page into a neighbour (too many). -/
def adjustToPageCount (pages : List (List Char)) (target : Nat) : List (List Char) :=
  adjustShrink target pages.length (adjustGrow target target pages)

/-- The regex class `\d`. -/
def isDigit (c : Char) : Bool := '0'.toNat ≤ c.toNat && c.toNat ≤ '9'.toNat

/-- First position at or after `i` whose character fails `p` (or the end of
the text): the end of the maximal `p`-run, as consumed by a greedy `p*`. -/
def runEnd (p : Char → Bool) (t : List Char) (i : Nat) : Nat :=
  i + ((t.drop i).takeWhile p).length

/-- Index of the last occurrence of `c` in `l`, if any. -/
def lastIdxOf (c : Char) : List Char → Option Nat
  | [] => none
  | a :: rest =>
    match lastIdxOf c rest with
    | some k => some (k + 1)
    | none => if a = c then some 0 else none

/-- Match the regex tail `\s*\n` at position `i`: greedy `\s*` with
backtracking means the match ends just after the last newline of the maximal
whitespace run starting at `i`.  Returns the end position (exclusive). -/
def wsNewlineEnd (t : List Char) (i : Nat) : Option Nat :=
  match lastIdxOf '\n' ((t.drop i).takeWhile isWS) with
  | some k => some (i + k + 1)
  | none => none

/-- Case-insensitive literal match of `pat` against `t` at offset `i`
(for the `i` regex flag). -/
def matchCIAt (t : List Char) : Nat → List Char → Bool
  | _, [] => true
  | i, c :: cs =>
    match t[i]? with
    | some d => (d.toLower == c.toLower) && matchCIAt t (i + 1) cs
    | none => false

/-- Marker pattern 1 of splitIntoPages: the form feed regex. -/
def ffMatch (t : List Char) (i : Nat) : Option Nat :=
  if t[i]? = some '\x0c' then some (i + 1) else none

/-- Marker pattern 2 of splitIntoPages: a page number on its own line,
the regex of a newline, optional whitespace, digits, optional whitespace and
a closing newline. -/
def pageNumLineMatch (t : List Char) (i : Nat) : Option Nat :=
  if t[i]? = some '\n' then
    let j := runEnd isWS t (i + 1)
    let k := runEnd isDigit t j
    if j < k then wsNewlineEnd t k else none
  else none

/-- Marker pattern 3 of splitIntoPages: the word Page followed by whitespace
and digits, case-insensitively. -/
def pageWordMatch (t : List Char) (i : Nat) : Option Nat :=
  if matchCIAt t i ("Page".toList) then
    let j := runEnd isWS t (i + 4)
    if i + 4 < j then
      let k := runEnd isDigit t j
      if j < k then some k else none
    else none
  else none

/-- Marker pattern 4 of splitIntoPages: digits, optional whitespace, a
slash, optional whitespace, digits (the X of Y page pattern). -/
def slashMatch (t : List Char) (i : Nat) : Option Nat :=
  let j := runEnd isDigit t i
  if i < j then
    let k := runEnd isWS t j
    if t[k]? = some '/' then
      let m := runEnd isWS t (k + 1)
      let n := runEnd isDigit t m
      if m < n then some n else none
    else none
  else none

/-- Marker pattern 5 of splitIntoPages: a page number between dashes on its
own line. -/
def dashNumMatch (t : List Char) (i : Nat) : Option Nat :=
  if t[i]? = some '\n' then
    let j := runEnd isWS t (i + 1)
    if t[j]? = some '-' then
      let k := runEnd isWS t (j + 1)
      let m := runEnd isDigit t k
      if k < m then
        let n := runEnd isWS t m
        if t[n]? = some '-' then wsNewlineEnd t (n + 1) else none
      else none
    else none
  else none

/-- Global regex scanning as performed by `String.prototype.matchAll`:
repeatedly take the leftmost match at or after the current position and
continue from its end (advancing one character past the start when the end
does not, as the JS engine does for empty matches).  Returns (start, end)
pairs.  Fuel bounds the recursion; `t.length` is always enough because the
position strictly increases. -/
def scanAll (m : List Char → Nat → Option Nat) (t : List Char) :
    Nat → Nat → List (Nat × Nat)
  | 0, _ => []
  | fuel + 1, pos =>
    if pos < t.length then
      match m t pos with
      | some e => (pos, e) :: scanAll m t fuel (max e (pos + 1))
      | none => scanAll m t fuel (pos + 1)
    else []

/-- The match start positions of a pattern, as used by `splitIntoPages`. -/
def matchStarts (m : List Char → Nat → Option Nat) (t : List Char) : List Nat :=
  (scanAll m t t.length 0).map Prod.fst

/-- The body of the marker loop of `splitByMarkers` (ingestion.ts): each
marker index opens a segment that runs to the next marker (or the end);
segments are trimmed and dropped when empty. -/
def segsFrom (t : List Char) : List Nat → List (List Char)
  | [] => []
  | i :: rest =>
    let e := match rest with
      | [] => t.length
      | j :: _ => j
    let pc := jsTrim (sub t i e)
    (if 0 < pc.length then [pc] else []) ++ segsFrom t rest

/-- `splitByMarkers` from ingestion.ts.  The text before the first marker
becomes the first page when the first marker is not at position 0; the
final filter mirrors the `.filter((page) => page.length > 0)` of the
source.  The source is only ever called with at least one marker. -/
def splitByMarkers (t : List Char) (idxs : List Nat) : List (List Char) :=
  match idxs with
  | [] => []
  | m0 :: _ =>
    let first := if 0 < m0 then [jsTrim (t.take m0)] else []
    (first ++ segsFrom t idxs).filter (fun p => 0 < p.length)

/-- JS `String.prototype.split` with a single-character separator. -/
def splitOnChar (sep : Char) : List Char → List (List Char)
  | [] => [[]]
  | c :: rest =>
    match splitOnChar sep rest with
    | [] => [[c]]
    | h :: tl => if c = sep then [] :: h :: tl else (c :: h) :: tl

/-- Insertion step of a stable descending-length sort. -/
def insertByLen (x : List Char) : List (List Char) → List (List Char)
  | [] => [x]
  | y :: ys => if y.length ≤ x.length then x :: y :: ys else y :: insertByLen x ys

/-- Stable sort mirroring `sort((a, b) => b.length - a.length)` on the
repeated-line candidates: longer lines first, ties keeping the original
order (JS array sort is stable). -/
def sortByLenDesc (l : List (List Char)) : List (List Char) :=
  l.foldr insertByLen []

/-- Keep the first occurrence of each distinct line, in order: the key set
of the insertion-ordered frequency Map of `detectByRepeatedElements`. -/
def dedupGo : List (List Char) → List (List Char) → List (List Char)
  | [], _ => []
  | x :: xs, seen => if x ∈ seen then dedupGo xs seen else x :: dedupGo xs (x :: seen)

/-- First-occurrence deduplication. -/
def dedupKeepFirst (l : List (List Char)) : List (List Char) := dedupGo l []

/-- JS `String.prototype.indexOf(pat, start)`: the innermost loop.  Fuel
bounds the scan; `t.length + 1` is always enough. -/
def idxFromGo (t pat : List Char) : Nat → Nat → Option Nat
  | 0, _ => none
  | fuel + 1, i =>
    if i + pat.length ≤ t.length then
      if pat.isPrefixOf (t.drop i) then some i else idxFromGo t pat fuel (i + 1)
    else none

/-- JS `String.prototype.indexOf(pat, start)` for nonempty `pat`. -/
def indexOfFrom (t pat : List Char) (start : Nat) : Option Nat :=
  idxFromGo t pat (t.length + 1) start

/-- The `while (true) { indexOf ... }` occurrence-collecting loop of
`detectByRepeatedElements`: every occurrence of the candidate line, each
search resuming after the end of the previous occurrence. -/
def collectIdxGo (t pat : List Char) : Nat → Nat → List Nat
  | 0, _ => []
  | fuel + 1, s =>
    match indexOfFrom t pat s with
    | none => []
    | some i => i :: collectIdxGo t pat fuel (i + pat.length)

/-- All occurrence positions of `pat` in `t`. -/
def collectIdx (t pat : List Char) : List Nat :=
  collectIdxGo t pat (t.length + 1) 0

/-- The candidate loop of `detectByRepeatedElements`: try up to three
repeated lines; the first whose occurrence count is at least 2 and whose
marker split yields more than one page wins. -/
def detectTry (t : List Char) (totalPages : Nat) : List (List Char) → List (List Char)
  | [] => []
  | cand :: rest =>
    let indices := collectIdx t cand
    if 2 ≤ indices.length then
      let pages := splitByMarkers t indices
      if 1 < pages.length then adjustToPageCount pages totalPages
      else detectTry t totalPages rest
    else detectTry t totalPages rest

/-- `detectByRepeatedElements` from ingestion.ts: find lines of trimmed
length strictly between 5 and 100 that recur between 2 and `totalPages`
times, prefer the longest three, and split at the occurrences of the first
candidate that produces more than one page. -/
def detectByRepeatedElements (t : List Char) (totalPages : Nat) : List (List Char) :=
  let lines := splitOnChar '\n' t
  let eligible := (lines.map jsTrim).filter
    (fun s => decide (5 < s.length) && decide (s.length < 100))
  let repeated := (dedupKeepFirst eligible).filter
    (fun s => decide (2 ≤ eligible.count s) && decide (eligible.count s ≤ totalPages))
  detectTry t totalPages ((sortByLenDesc repeated).take 3)

/-- The paragraph separator regex of `splitByStatisticalAnalysis`: a
newline, optional whitespace, and a closing newline. -/
def sepMatch (t : List Char) (i : Nat) : Option Nat :=
  if t[i]? = some '\n' then wsNewlineEnd t (i + 1) else none

/-- The pieces of a regex split: the text between consecutive matches,
including empty pieces, as JS `String.prototype.split` produces them. -/
def piecesBetween (t : List Char) : Nat → List (Nat × Nat) → List (List Char)
  | cur, [] => [sub t cur t.length]
  | cur, (i, e) :: rest => sub t cur i :: piecesBetween t e rest

/-- JS `fullText.split(/\n\s*\n/)`. -/
def splitParas (t : List Char) : List (List Char) :=
  piecesBetween t 0 (scanAll sepMatch t t.length 0)

/-- The paragraph-accumulation loop of `splitByStatisticalAnalysis`.  The
page-break decision `cond` receives the running `currentLength`; the source
computes `currentLength > avgLength * 0.7` in floating point, which is
passed in as an oracle so every theorem below holds for the source's exact
rounding (see `condDefault`). -/
def statLoop (cond : Nat → Bool) (totalPages : Nat) :
    List (List Char) → List (List Char) → List Char → Nat → List (List Char)
  | [], pages, cur, _ =>
    pages ++ (if 0 < (jsTrim cur).length then [jsTrim cur] else [])
  | para :: rest, pages, cur, curLen =>
    if cond curLen && decide (pages.length < totalPages - 1) then
      statLoop cond totalPages rest
        (pages ++ (if 0 < (jsTrim cur).length then [jsTrim cur] else []))
        para para.length
    else
      statLoop cond totalPages rest pages
        (cur ++ (if cur.isEmpty then para else '\n' :: '\n' :: para))
        (curLen + para.length)

/-- The page-break condition `currentLength > avgLength * 0.7` with
`avgLength = fullText.length / totalPages`, evaluated in exact rational
arithmetic: `10 * curLen * totalPages > 7 * fullLen`. -/
def condDefault (fullLen totalPages curLen : Nat) : Bool :=
  decide (10 * curLen * totalPages > 7 * fullLen)

/-- `splitByStatisticalAnalysis` from ingestion.ts, parameterised by the
page-break condition. -/
def splitByStatisticalAnalysis (cond : Nat → Bool) (t : List Char)
    (totalPages : Nat) : List (List Char) :=
  let paragraphs := splitParas t
  if paragraphs.length < totalPages then []
  else
    let pages := statLoop cond totalPages paragraphs [] [] 0
    if 1 < pages.length then adjustToPageCount pages totalPages else []

/-- `splitIntoEqualParts` from ingestion.ts: `totalPages` equal-size slices,
the last one absorbing the remainder, each trimmed. -/
def splitIntoEqualParts (t : List Char) (totalPages : Nat) : List (List Char) :=
  let pageSize := t.length / totalPages
  (List.range totalPages).map (fun i =>
    jsTrim (sub t (i * pageSize)
      (if i = totalPages - 1 then t.length else (i + 1) * pageSize)))

/-- The ordered marker patterns of strategy 1 of `splitIntoPages`. -/
def markerPats : List (List Char → Nat → Option Nat) :=
  [ffMatch, pageNumLineMatch, pageWordMatch, slashMatch, dashNumMatch]

/-- The strategy-1 loop of `splitIntoPages`: accept a pattern only when it
matches a reasonable number of times (at most twice the declared count) and
splitting at its matches produces more than one page. -/
def tryMarkerPats (t : List Char) (totalPages : Nat) :
    List (List Char → Nat → Option Nat) → Option (List (List Char))
  | [] => none
  | m :: ms =>
    let starts := matchStarts m t
    if 0 < starts.length ∧ starts.length ≤ totalPages * 2 then
      let pages := splitByMarkers t starts
      if 1 < pages.length then some (adjustToPageCount pages totalPages)
      else tryMarkerPats t totalPages ms
    else tryMarkerPats t totalPages ms

/-- `splitIntoPages` from ingestion.ts, parameterised by the statistical
page-break condition. -/
def splitIntoPagesWith (cond : Nat → Bool) (t : List Char) (totalPages : Nat) :
    List (List Char) :=
  match tryMarkerPats t totalPages markerPats with
  | some pages => pages
  | none =>
    let fh := detectByRepeatedElements t totalPages
    if 1 < fh.length then fh
    else
      let st := splitByStatisticalAnalysis cond t totalPages
      if 1 < st.length then st
      else splitIntoEqualParts t totalPages

/-- `splitIntoPages` from ingestion.ts. -/
def splitIntoPages (t : List Char) (totalPages : Nat) : List (List Char) :=
  splitIntoPagesWith (condDefault t.length totalPages) t totalPages

/-- The result of the external `pdf-parse` collaborator: extracted full text
and declared page count. -/
structure PdfData where
  text : List Char
  numpages : Nat

/-- The invalid-buffer error message of `generateEmbeddings`. -/
def invalidBufferMsg : List Char := "Invalid file buffer provided".toList

/-- The wrapper applied by the catch block of `generateEmbeddings` to every
error raised inside the try block. -/
def processFailMsg (m : List Char) : List Char :=
  "Failed to process PDF: ".toList ++ m

/-- The empty-extraction error message of `generateEmbeddings`. -/
def noTextMsg : List Char := "No text content found in PDF".toList

/-- The all-pages-blank error message of `generateEmbeddings`. -/
def noValidPagesMsg : List Char := "No valid pages found".toList

/-- The page-document loop of `generateEmbeddings`: one `(pageNumber,
trimmed text)` document per page whose trimmed text is nonempty, with
1-based page numbers. -/
def pageDocsGo : Nat → List (List Char) → List (Nat × List Char)
  | _, [] => []
  | pageIndex, p :: rest =>
    (if 0 < (jsTrim p).length then [(pageIndex + 1, jsTrim p)] else []) ++
      pageDocsGo (pageIndex + 1) rest

/-- The page documents built by `generateEmbeddings` from the segmented
page texts. -/
def pageDocs (pageTexts : List (List Char)) : List (Nat × List Char) :=
  pageDocsGo 0 pageTexts

/-- The observable outcome of `generateEmbeddings`: the returned value or
thrown error, the process-wide `globalIndex` afterwards, and whether a
persistence failure was logged (and swallowed). -/
structure IngestResult where
  result : Except (List Char) (List (Nat × List Char))
  globalIndex : Option (List (Nat × List Char))
  persistFailLogged : Bool

/-- `generateEmbeddings` from ingestion.ts.  The external collaborators are
explicit inputs: `isBuffer`/`fileLen` describe the argument, `parse` is the
outcome of `pdf-parse` (error = the rejection it throws), `buildErr` an
error thrown by `VectorStoreIndex.fromDocuments` (none = the index is
built), `persistFails` whether the best-effort persistence block throws,
and `globalBefore` the process-wide index beforehand.  An index is modelled
by the list of page documents it is built from. -/
def generateEmbeddings (isBuffer : Bool) (fileLen : Nat)
    (parse : Except (List Char) PdfData) (buildErr : Option (List Char))
    (persistFails : Bool)
    (globalBefore : Option (List (Nat × List Char))) : IngestResult :=
  if ¬ isBuffer ∨ fileLen = 0 then
    ⟨.error invalidBufferMsg, globalBefore, false⟩
  else
    match parse with
    | .error m => ⟨.error (processFailMsg m), globalBefore, false⟩
    | .ok pd =>
      if (jsTrim pd.text).length = 0 then
        ⟨.error (processFailMsg noTextMsg), globalBefore, false⟩
      else
        let docs := pageDocs (splitIntoPages pd.text pd.numpages)
        if docs.length = 0 then
          ⟨.error (processFailMsg noValidPagesMsg), globalBefore, false⟩
        else
          match buildErr with
          | some m => ⟨.error (processFailMsg m), globalBefore, false⟩
          | none => ⟨.ok docs, some docs, persistFails⟩

/-- The persisted pages.json content as `getRetriever` consumes it:
`JSON.parse` may throw (malformed file), yield a non-array value, or yield
an array of page records `{page, text}`. -/
inductive PagesJson
  | malformed
  | notArray
  | arr (items : List (Nat × List Char))
deriving DecidableEq

/-- The persisted flat files under the data directory.  Contents are
carried (not just existence) so that non-interference of the vector store
file's contents is expressible; the source only ever passes
`vector_store.json` to `existsSync`. -/
structure FsState where
  vectorStoreFile : Option (List Char)
  pagesFile : Option PagesJson
  documentFile : Option (List Char)
deriving DecidableEq

/-- The not-found error message of retrieval.ts. -/
def notFoundMsg : List Char :=
  "Vector store not found. Please upload a PDF first.".toList

/-- The empty-persisted-text error message of retrieval.ts. -/
def emptyPersistMsg : List Char :=
  "Persisted document text is empty or invalid.".toList

/-- The substring the outer catch of `getRetriever` matches for not-found
errors. -/
def notFoundKey : List Char := "Vector store not found".toList

/-- The substring the outer catch of `getRetriever` matches for
empty-persisted-text errors. -/
def emptyPersistKey : List Char := "Persisted document text is empty".toList

/-- JS `String.prototype.includes`. -/
def containsSub (hay needle : List Char) : Bool :=
  (List.range (hay.length + 1)).any (fun i => needle.isPrefixOf (hay.drop i))

/-- An index as `getRetriever` rebuilds it: from page documents (the
page-aware persisted format) or from one legacy document. -/
inductive IndexModel
  | fromPages (docs : List (Nat × List Char))
  | fromLegacy (text : List Char)
deriving DecidableEq

/-- The inner try of the page-aware branch of `getRetriever`: `none` means
the branch threw or the file is absent, and control falls through to the
legacy branch.  `berr` is an error thrown by
`VectorStoreIndex.fromDocuments` (caught by the same inner catch). -/
def pagesAttempt : Option PagesJson → Option (List Char) → Option IndexModel
  | none, _ => none
  | some pj, berr =>
    match pj with
    | .malformed => none
    | .notArray => none
    | .arr items =>
      if items.length = 0 then none
      else
        let documents := items.filter (fun d => 0 < (jsTrim d.2).length)
        if documents.length = 0 then none
        else
          match berr with
          | some _ => none
          | none => some (.fromPages documents)

/-- The body of the outer try of `getRetriever` (retrieval.ts): check the
vector store file exists, prefer the page-aware data, fall back to the
legacy document text. -/
def reloadBody (fs : FsState) (pagesBuildErr legacyBuildErr : Option (List Char)) :
    Except (List Char) IndexModel :=
  if fs.vectorStoreFile.isNone then .error notFoundMsg
  else
    match pagesAttempt fs.pagesFile pagesBuildErr with
    | some idx => .ok idx
    | none =>
      match fs.documentFile with
      | none => .error notFoundMsg
      | some text =>
        if (jsTrim text).length = 0 then .error emptyPersistMsg
        else
          match legacyBuildErr with
          | some m => .error m
          | none => .ok (.fromLegacy text)

/-- The outer catch of `getRetriever`: rethrow an error whose message
contains one of the two meaningful substrings, collapse everything else to
the not-found message. -/
def collapseErr : Except (List Char) IndexModel → Except (List Char) IndexModel
  | .ok idx => .ok idx
  | .error m =>
    if containsSub m notFoundKey || containsSub m emptyPersistKey then .error m
    else .error notFoundMsg

/-- The observable outcome of `getRetriever`: the returned retriever's
index or the thrown error, and the process-wide index afterwards. -/
structure RetrieverResult where
  result : Except (List Char) IndexModel
  globalAfter : Option IndexModel

/-- `getRetriever` from retrieval.ts.  `g` is the process-wide index before
the call; on every successful reload `setGlobalIndex` runs, on a thrown
error it does not. -/
def getRetriever (g : Option IndexModel) (fs : FsState)
    (pagesBuildErr legacyBuildErr : Option (List Char)) : RetrieverResult :=
  match g with
  | some idx => ⟨.ok idx, some idx⟩
  | none =>
    match collapseErr (reloadBody fs pagesBuildErr legacyBuildErr) with
    | .ok idx => ⟨.ok idx, some idx⟩
    | .error m => ⟨.error m, none⟩

/-- Chat roles. -/
inductive Role
  | user
  | assistant
deriving DecidableEq

/-- A conversation-memory message. -/
structure ChatMsg where
  role : Role
  content : List Char
deriving DecidableEq

/-- A retrieval result node as `queryRAG` consumes it: the node's content,
its optional relevance score (an opaque number the code only passes
through, defaulting to 0 when absent) and its optional page metadata. -/
structure RNode where
  content : List Char
  score : Option Nat
  page : Option Nat
deriving DecidableEq

/-- `NO_RESULTS_MESSAGE` from prompts.ts. -/
def noResultsMessage : List Char :=
  ("I couldn\x27t find any relevant information in the uploaded document " ++
   "to answer your question. Please try rephrasing your question or " ++
   "upload a more relevant document.").toList

/-- `buildPrompt` from prompts.ts: the prompt template, omitting the
previous-conversation section when the trimmed history is empty. -/
def buildPrompt (historyText context question : List Char) : List Char :=
  ("You are a helpful assistant that answers questions based on the " ++
   "provided context from uploaded documents and previous conversation." ++
   "\n\n").toList ++
  (if 0 < (jsTrim historyText).length then
    "Previous conversation:\n".toList ++ jsTrim historyText ++ "\n\n".toList
  else []) ++
  "Document context:\n".toList ++ context ++
  "\n\nCurrent question: ".toList ++ question ++
  ("\n\nPlease provide a comprehensive answer considering both the " ++
   "document context and our conversation history. If the context " ++
   "doesn\x27t contain enough information to fully answer the question, " ++
   "please say so and explain what information is available.").toList

/-- Role names as they appear in the history text. -/
def roleStr : Role → List Char
  | .user => "user".toList
  | .assistant => "assistant".toList

/-- A sources entry of a `queryRAG` response: a 200-character content
preview with an ellipsis, the score (defaulted to 0), the page. -/
structure SourceEntry where
  content : List Char
  score : Nat
  page : Option Nat
deriving DecidableEq

/-- The sources mapping of `queryRAG`. -/
def mkSource (r : RNode) : SourceEntry :=
  ⟨r.content.take 200 ++ "...".toList, r.score.getD 0,
   match r.page with
   | some p => if 0 < p then some p else none
   | none => none⟩

/-- The observable outcome of a successful `queryRAG` call: the chunks of
the returned stream, the sources array, the conversation memory afterwards
(its token-budget trimming is the memory collaborator's and is not
re-modelled), and whether the Gemini streaming call was made. -/
structure QueryOut where
  streamChunks : List (List Char)
  sources : List SourceEntry
  memAfter : List ChatMsg
  llmCalled : Bool

/-- `queryRAG` from index.ts.  `results` is what the retriever returned for
the question and `llm` the Gemini streaming collaborator (prompt to
delivered chunks); the zero-results short-circuit never consults `llm`. -/
def queryRAG (question : List Char) (mem : List ChatMsg) (results : List RNode)
    (llm : List Char → List (List Char)) : Except (List Char) QueryOut :=
  if (jsTrim question).length = 0 then .error "Question cannot be empty".toList
  else
    let mem1 := mem ++ [⟨.user, question⟩]
    match results with
    | [] =>
      .ok ⟨[noResultsMessage], [], mem1 ++ [⟨.assistant, noResultsMessage⟩], false⟩
    | _ :: _ =>
      let context := List.intercalate "\n\n".toList
        (results.enum.map (fun p =>
          "[".toList ++ (toString (p.1 + 1)).toList ++ "] ".toList ++ p.2.content))
      let historyText := List.intercalate "\n".toList
        (mem1.dropLast.map (fun m => roleStr m.role ++ ": ".toList ++ m.content))
      let chunks := llm (buildPrompt historyText context question)
      .ok ⟨chunks, results.map mkSource,
        mem1 ++ [⟨.assistant, chunks.flatten⟩], true⟩

/-- JSON values, as far as the SSE payload extraction of
`callGeminiLLMStream` navigates them. -/
inductive Json
  | null
  | bool (b : Bool)
  | num (n : Int)
  | str (s : List Char)
  | arr (xs : List Json)
  | obj (fields : List (List Char × Json))

/-- JS property access on a parsed JSON object. -/
def jlookup (fields : List (List Char × Json)) (k : List Char) : Option Json :=
  (fields.find? (fun f => f.1 = k)).map (fun f => f.2)

/-- The optional-chaining extraction
`data.candidates?.[0]?.content?.parts?.[0]?.text` of streaming.ts, yielding
a string or nothing. -/
def extractText : Json → Option (List Char)
  | .obj fields =>
    match jlookup fields ("candidates".toList) with
    | some (.arr (c :: _)) =>
      match c with
      | .obj cf =>
        match jlookup cf ("content".toList) with
        | some (.obj contf) =>
          match jlookup contf ("parts".toList) with
          | some (.arr (p :: _)) =>
            match p with
            | .obj pf =>
              match jlookup pf ("text".toList) with
              | some (.str s) => some s
              | _ => none
            | _ => none
          | _ => none
        | _ => none
      | _ => none
    | _ => none
  | _ => none

/-- The SSE data line marker. -/
def dataTag : List Char := "data: ".toList

/-- The SSE termination sentinel. -/
def doneTag : List Char := "[DONE]".toList

/-- Whether a line is the [DONE] sentinel data line. -/
def isDoneLine (line : List Char) : Bool :=
  dataTag.isPrefixOf line && decide (jsTrim (line.drop 6) = doneTag)

/-- The text a single line contributes to the demultiplexed stream: the
declarative description of one iteration of the SSE line loop of
`callGeminiLLMStream`.  `parse` is `JSON.parse` (none = it throws). -/
def dataLineOut (parse : List Char → Option Json) (line : List Char) :
    Option (List Char) :=
  if dataTag.isPrefixOf line then
    let payload := jsTrim (line.drop 6)
    if payload = doneTag then none
    else
      match parse payload with
      | none => none
      | some j =>
        match extractText j with
        | some s => if 0 < s.length then some s else none
        | none => none
  else none

/-- The `for (const line of lines)` loop of `callGeminiLLMStream`: enqueue
the extracted text of each well-formed data line, skip (and log) lines
whose payload fails to parse, and stop — returning `true` — at the [DONE]
sentinel. -/
def processLines (parse : List Char → Option Json) :
    List (List Char) → List (List Char) × Bool
  | [] => ([], false)
  | line :: rest =>
    if dataTag.isPrefixOf line then
      let payload := jsTrim (line.drop 6)
      if payload = doneTag then ([], true)
      else
        match parse payload with
        | none => processLines parse rest
        | some j =>
          match extractText j with
          | some s =>
            if 0 < s.length then
              ((processLines parse rest).1.cons s, (processLines parse rest).2)
            else processLines parse rest
          | none => processLines parse rest
    else processLines parse rest

/-- The chunk pump of the SSE demultiplexer of `callGeminiLLMStream`: each
upstream chunk is split on newlines and its lines processed; the [DONE]
sentinel closes the output stream, skipping every later chunk. -/
def demuxChunks (parse : List Char → Option Json) :
    List (List Char) → List (List Char)
  | [] => []
  | c :: cs =>
    if (processLines parse (splitOnChar '\n' c)).2 then
      (processLines parse (splitOnChar '\n' c)).1
    else
      (processLines parse (splitOnChar '\n' c)).1 ++ demuxChunks parse cs

/-- The error message of the chat route's stream error event. -/
def streamFailMsg : List Char := "Stream processing failed".toList

/-- The stream events of the chat route's newline-delimited JSON body. -/
inductive StreamEvent
  | sources (s : List SourceEntry)
  | messageStart
  | messageChunk (content : List Char)
  | messageEnd
  | error (e : List Char)
deriving DecidableEq

/-- The reader pump of the combined stream of POST /api/chat: each chunk
read from the inner RAG stream becomes a message_chunk event; a graceful
end appends message_end and closes; a read error appends an error event and
closes. -/
def pumpEvents : List (List Char) → Bool → List StreamEvent
  | [], false => [.messageEnd]
  | [], true => [.error streamFailMsg]
  | c :: cs, fails => .messageChunk c :: pumpEvents cs fails

/-- The streaming body of POST /api/chat: the sources event, the
message_start event, then the pumped inner stream.  `innerChunks` are the
chunks the RAG stream delivers before it either ends or (`innerFails`)
errors. -/
def chatStreamEvents (srcs : List SourceEntry) (innerChunks : List (List Char))
    (innerFails : Bool) : List StreamEvent :=
  .sources srcs :: .messageStart :: pumpEvents innerChunks innerFails

end PdfRag

namespace PdfRag

theorem nonWS_append (a b : List Char) : nonWS (a ++ b) = nonWS a ++ nonWS b :=
  List.filter_append a b

theorem nonWS_dropWhile (s : List Char) : nonWS (s.dropWhile isWS) = nonWS s := by
  induction s with
  | nil => rfl
  | cons c t ih =>
    by_cases h : isWS c
    · rw [List.dropWhile_cons, if_pos h, ih]
      simp [nonWS, List.filter_cons, h]
    · rw [List.dropWhile_cons, if_neg h]

theorem nonWS_reverse (s : List Char) : nonWS s.reverse = (nonWS s).reverse := by
  simp [nonWS, List.filter_reverse]

theorem nonWS_jsTrim (s : List Char) : nonWS (jsTrim s) = nonWS s := by
  unfold jsTrim
  rw [nonWS_reverse, nonWS_dropWhile, nonWS_reverse, List.reverse_reverse,
    nonWS_dropWhile]

theorem nonWS_flatten (l : List (List Char)) :
    nonWS l.flatten = (l.map nonWS).flatten := by
  induction l with
  | nil => rfl
  | cons a t ih => simp [List.flatten, nonWS_append, ih]

theorem flatten_filter_ne_nil (l : List (List Char)) :
    (l.filter (fun p => p ≠ [])).flatten = l.flatten := by
  induction l with
  | nil => rfl
  | cons a t ih =>
    rw [List.filter_cons]
    by_cases h : a = []
    · rw [if_neg (by simp [h]), ih, h]
      rfl
    · rw [if_pos (by simp [h]), List.flatten_cons, List.flatten_cons, ih]

theorem jsTrim_eq_nil_iff (s : List Char) : jsTrim s = [] ↔ nonWS s = [] := by
  constructor
  · intro h
    have := nonWS_jsTrim s
    rw [h] at this
    exact this.symm
  · intro h
    have hall : ∀ c ∈ s, isWS c := by
      intro c hc
      by_contra hw
      have : c ∈ nonWS s := by
        simp [nonWS, List.mem_filter, hc, hw]
      simp [h] at this
    have h1 : s.dropWhile isWS = [] := List.dropWhile_eq_nil_iff.mpr hall
    simp [jsTrim, h1]

theorem maxOfList_mem (l : List Nat) (h : l ≠ []) : maxOfList l ∈ l := by
  induction l with
  | nil => exact absurd rfl h
  | cons a t ih =>
    cases t with
    | nil =>
      show max a 0 ∈ [a]
      simp
    | cons b u =>
      have hm := ih (by simp)
      have hfold : maxOfList (a :: b :: u) = max a (maxOfList (b :: u)) := rfl
      rw [hfold]
      rcases max_choice a (maxOfList (b :: u)) with hc | hc
      · rw [hc]
        exact List.mem_cons_self _ _
      · rw [hc]
        exact List.mem_cons_of_mem _ hm

theorem minOfList_mem (l : List Nat) (h : l ≠ []) : minOfList l ∈ l := by
  cases l with
  | nil => exact absurd rfl h
  | cons a t =>
    show t.foldl min a ∈ a :: t
    clear h
    induction t generalizing a with
    | nil => simp
    | cons b u ih =>
      simp only [List.foldl_cons]
      have hm := ih (min a b)
      rcases List.mem_cons.mp hm with he | hu
      · rw [he]
        rcases min_choice a b with hc | hc
        · rw [hc]
          exact List.mem_cons_self _ _
        · rw [hc]
          exact List.mem_cons_of_mem _ (List.mem_cons_self _ _)
      · exact List.mem_cons_of_mem _ (List.mem_cons_of_mem _ hu)

theorem eq_take_cons_drop (l : List (List Char)) (i : Nat) (h : i < l.length) :
    l = l.take i ++ l.getD i [] :: l.drop (i + 1) := by
  conv_lhs => rw [← List.take_append_drop i l]
  rw [List.drop_eq_getElem_cons h, List.getD_eq_getElem l [] h]

theorem maxIdx_lt (l : List (List Char)) (h : l ≠ []) :
    (l.map List.length).indexOf (maxOfList (l.map List.length)) < l.length := by
  have hne : l.map List.length ≠ [] := by simpa using h
  have hmem := maxOfList_mem _ hne
  have := List.indexOf_lt_length.mpr hmem
  simpa using this

theorem minIdx_lt (l : List (List Char)) (h : l ≠ []) :
    (l.map List.length).indexOf (minOfList (l.map List.length)) < l.length := by
  have hne : l.map List.length ≠ [] := by simpa using h
  have hmem := minOfList_mem _ hne
  have := List.indexOf_lt_length.mpr hmem
  simpa using this

theorem length_growStep (l : List (List Char)) (h : l ≠ []) :
    (growStep l).length = l.length + 1 := by
  have hi := maxIdx_lt l h
  simp only [growStep, List.length_append, List.length_take, List.length_cons,
    List.length_drop]
  omega

theorem flatten_surgery (pre post : List (List Char)) (a : List Char) (m : Nat) :
    (pre ++ a.take m :: a.drop m :: post).flatten = (pre ++ a :: post).flatten := by
  rw [List.flatten_append, List.flatten_append, List.flatten_cons, List.flatten_cons,
    List.flatten_cons]
  conv_rhs => rw [← List.take_append_drop m a]
  simp only [List.append_assoc]

theorem flatten_growStep (l : List (List Char)) (h : l ≠ []) :
    (growStep l).flatten = l.flatten := by
  have hi := maxIdx_lt l h
  simp only [growStep]
  conv_rhs => rw [eq_take_cons_drop l _ hi]
  exact flatten_surgery _ _ _ _

theorem nonWS_space_cons (b : List Char) : nonWS (' ' :: b) = nonWS b := by
  simp [nonWS, List.filter_cons, show isWS ' ' = true from rfl]

theorem nonWS_flatten_merge (pre post : List (List Char)) (a b : List Char) :
    nonWS (pre ++ (a ++ ' ' :: b) :: post).flatten =
      nonWS (pre ++ a :: b :: post).flatten := by
  simp only [List.flatten_append, List.flatten_cons, nonWS_append]
  rw [nonWS_space_cons]
  simp [List.append_assoc]

theorem length_shrinkStep (l : List (List Char)) (h : 2 ≤ l.length) :
    (shrinkStep l).length = l.length - 1 := by
  have hne : l ≠ [] := by
    intro hnil
    rw [hnil] at h
    simp at h
  have hi := minIdx_lt l hne
  by_cases hb : (l.map List.length).indexOf (minOfList (l.map List.length)) < l.length - 1
  · simp only [shrinkStep, if_pos hb, List.length_append, List.length_take,
      List.length_cons, List.length_drop]
    omega
  · simp only [shrinkStep, if_neg hb, List.length_append, List.length_take,
      List.length_cons, List.length_nil]
    omega

theorem shrinkStep_ne_nil (l : List (List Char)) (h : 2 ≤ l.length) :
    shrinkStep l ≠ [] := by
  intro hnil
  have := length_shrinkStep l h
  rw [hnil] at this
  simp at this
  omega

theorem nonWS_flatten_shrinkStep (l : List (List Char)) (h : 2 ≤ l.length) :
    nonWS (shrinkStep l).flatten = nonWS l.flatten := by
  have hne : l ≠ [] := by
    intro hnil
    rw [hnil] at h
    simp at h
  have hi := minIdx_lt l hne
  set i := (l.map List.length).indexOf (minOfList (l.map List.length)) with hidef
  by_cases hb : i < l.length - 1
  · have hi1 : i + 1 < l.length := by omega
    have hl : l = l.take i ++ l.getD i [] :: l.getD (i + 1) [] :: l.drop (i + 2) := by
      conv_lhs => rw [eq_take_cons_drop l i hi]
      rw [List.drop_eq_getElem_cons hi1, List.getD_eq_getElem l [] hi1]
    simp only [shrinkStep, ← hidef, if_pos hb]
    conv_rhs => rw [hl]
    exact nonWS_flatten_merge _ _ _ _
  · have him1 : i - 1 < l.length := by omega
    have hdrop : l.drop (i + 1) = [] := by
      apply List.drop_eq_nil_of_le
      omega
    have h1 : i - 1 + 1 = i := by omega
    have hl : l = l.take (i - 1) ++ l.getD (i - 1) [] :: l.getD i [] :: [] := by
      conv_lhs => rw [eq_take_cons_drop l (i - 1) him1]
      rw [h1, List.drop_eq_getElem_cons hi, List.getD_eq_getElem l [] hi, hdrop]
    simp only [shrinkStep, ← hidef, if_neg hb]
    conv_rhs => rw [hl]
    exact nonWS_flatten_merge _ _ _ _

theorem growStep_ne_nil (l : List (List Char)) (h : l ≠ []) : growStep l ≠ [] := by
  intro hnil
  have := length_growStep l h
  rw [hnil] at this
  simp at this

theorem adjustGrow_spec (target fuel : Nat) (l : List (List Char)) (h : l ≠ [])
    (hf : target ≤ l.length + fuel) :
    (adjustGrow target fuel l).length = max l.length target ∧
    (adjustGrow target fuel l).flatten = l.flatten ∧
    adjustGrow target fuel l ≠ [] := by
  induction fuel generalizing l with
  | zero =>
    have hle : target ≤ l.length := by simpa using hf
    exact ⟨by simp [adjustGrow, Nat.max_eq_left hle], rfl, h⟩
  | succ f ih =>
    have hstep : adjustGrow target (f + 1) l =
        if l.length < target then adjustGrow target f (growStep l) else l := rfl
    by_cases hlt : l.length < target
    · have h1 := growStep_ne_nil l h
      have hL := length_growStep l h
      have h2 : target ≤ (growStep l).length + f := by omega
      obtain ⟨e1, e2, e3⟩ := ih (growStep l) h1 h2
      rw [hstep, if_pos hlt]
      refine ⟨?_, ?_, e3⟩
      · rw [e1, hL]
        omega
      · rw [e2, flatten_growStep l h]
    · rw [hstep, if_neg hlt]
      exact ⟨by omega, rfl, h⟩

theorem adjustShrink_spec (target fuel : Nat) (l : List (List Char))
    (ht : 1 ≤ target) (h : l ≠ []) (hf : l.length ≤ target + fuel) :
    (adjustShrink target fuel l).length = min l.length target ∧
    nonWS (adjustShrink target fuel l).flatten = nonWS l.flatten ∧
    adjustShrink target fuel l ≠ [] := by
  induction fuel generalizing l with
  | zero =>
    have hle : l.length ≤ target := by simpa using hf
    exact ⟨by simp [adjustShrink, Nat.min_eq_left hle], rfl, h⟩
  | succ f ih =>
    have hstep : adjustShrink target (f + 1) l =
        if target < l.length then adjustShrink target f (shrinkStep l) else l := rfl
    by_cases hlt : target < l.length
    · have h2 : 2 ≤ l.length := by omega
      have h1 := shrinkStep_ne_nil l h2
      have hL := length_shrinkStep l h2
      have h3 : (shrinkStep l).length ≤ target + f := by omega
      obtain ⟨e1, e2, e3⟩ := ih (shrinkStep l) h1 h3
      rw [hstep, if_pos hlt]
      refine ⟨?_, ?_, e3⟩
      · rw [e1, hL]
        omega
      · rw [e2, nonWS_flatten_shrinkStep l h2]
    · rw [hstep, if_neg hlt]
      exact ⟨by omega, rfl, h⟩

theorem adjustToPageCount_spec (pages : List (List Char)) (target : Nat)
    (h : pages ≠ []) (ht : 1 ≤ target) :
    (adjustToPageCount pages target).length = target ∧
    nonWS (adjustToPageCount pages target).flatten = nonWS pages.flatten ∧
    adjustToPageCount pages target ≠ [] := by
  obtain ⟨g1, g2, g3⟩ := adjustGrow_spec target target pages h (by omega)
  have hglen : (adjustGrow target target pages).length ≤ target + pages.length := by
    rw [g1]
    omega
  obtain ⟨s1, s2, s3⟩ :=
    adjustShrink_spec target pages.length (adjustGrow target target pages) ht g3 hglen
  refine ⟨?_, ?_, s3⟩
  · rw [adjustToPageCount, s1, g1]
    omega
  · rw [adjustToPageCount, s2, g2]

theorem sub_self_len (t : List Char) (i : Nat) : sub t i t.length = t.drop i := by
  rw [sub, ← List.length_drop i t, List.take_length]

theorem drop_eq_sub_append (t : List Char) (i j : Nat) (h : i ≤ j) :
    t.drop i = sub t i j ++ t.drop j := by
  have hsplit := List.take_append_drop (j - i) (t.drop i)
  rw [List.drop_drop] at hsplit
  have hij : i + (j - i) = j := by omega
  rw [hij] at hsplit
  rw [sub]
  exact hsplit.symm

theorem flatten_filter_len_pos (l : List (List Char)) :
    (l.filter (fun p => 0 < p.length)).flatten = l.flatten := by
  induction l with
  | nil => rfl
  | cons a t ih =>
    rw [List.filter_cons]
    by_cases h : a = []
    · rw [if_neg (by simp [h]), ih, h]
      rfl
    · rw [if_pos (by simp [List.length_pos, h]), List.flatten_cons, List.flatten_cons, ih]

theorem nonWS_trimOpt (s : List Char) :
    (if 0 < (jsTrim s).length then [jsTrim s] else []).flatten = jsTrim s := by
  by_cases h : 0 < (jsTrim s).length
  · rw [if_pos h]
    simp
  · rw [if_neg h]
    have : jsTrim s = [] := by
      cases he : jsTrim s with
      | nil => rfl
      | cons c cs => rw [he] at h; simp at h
    rw [this]
    rfl

theorem segsFrom_nonWS (t : List Char) :
    ∀ rest i, List.Chain' (· ≤ ·) (i :: rest) →
      nonWS (segsFrom t (i :: rest)).flatten = nonWS (t.drop i) := by
  intro rest
  induction rest with
  | nil =>
    intro i _
    show nonWS ((if 0 < (jsTrim (sub t i t.length)).length
      then [jsTrim (sub t i t.length)] else []) ++ []).flatten = _
    rw [List.append_nil, nonWS_trimOpt, nonWS_jsTrim, sub_self_len]
  | cons j rest' ih =>
    intro i hc
    have hij : i ≤ j := List.chain'_cons.mp hc |>.1
    have hrest : List.Chain' (· ≤ ·) (j :: rest') := List.chain'_cons.mp hc |>.2
    show nonWS (((if 0 < (jsTrim (sub t i j)).length
      then [jsTrim (sub t i j)] else []) ++ segsFrom t (j :: rest')).flatten) = _
    rw [List.flatten_append, nonWS_append, nonWS_trimOpt, nonWS_jsTrim, ih j hrest,
      drop_eq_sub_append t i j hij, nonWS_append]

theorem splitByMarkers_nonWS (t : List Char) (idxs : List Nat) (h : idxs ≠ [])
    (hc : List.Chain' (· ≤ ·) idxs) :
    nonWS (splitByMarkers t idxs).flatten = nonWS t := by
  cases idxs with
  | nil => exact absurd rfl h
  | cons m0 rest =>
    show nonWS (((if 0 < m0 then [jsTrim (t.take m0)] else []) ++
      segsFrom t (m0 :: rest)).filter (fun p => 0 < p.length)).flatten = nonWS t
    rw [flatten_filter_len_pos, List.flatten_append, nonWS_append,
      segsFrom_nonWS t rest m0 hc]
    by_cases h0 : 0 < m0
    · rw [if_pos h0]
      have : ([jsTrim (t.take m0)] : List (List Char)).flatten = jsTrim (t.take m0) := by
        simp
      rw [this, nonWS_jsTrim, ← nonWS_append, List.take_append_drop]
    · rw [if_neg h0]
      have : m0 = 0 := by omega
      rw [this]
      rfl

theorem scanAll_ge_chain (m : List Char → Nat → Option Nat) (t : List Char) :
    ∀ fuel pos,
      (∀ p ∈ scanAll m t fuel pos, pos ≤ p.1) ∧
      List.Chain' (· ≤ ·) ((scanAll m t fuel pos).map Prod.fst) := by
  intro fuel
  induction fuel with
  | zero =>
    intro pos
    exact ⟨by intro p hp; simp [scanAll] at hp, by simp [scanAll]⟩
  | succ f ih =>
    intro pos
    have hunf : scanAll m t (f + 1) pos =
        (if pos < t.length then
          match m t pos with
          | some e => (pos, e) :: scanAll m t f (max e (pos + 1))
          | none => scanAll m t f (pos + 1)
        else []) := rfl
    rw [hunf]
    by_cases hp : pos < t.length
    · rw [if_pos hp]
      cases hme : m t pos with
      | some e =>
        simp only [hme]
        obtain ⟨ihg, ihc⟩ := ih (max e (pos + 1))
        constructor
        · intro p hp2
          rcases List.mem_cons.mp hp2 with he | hm
          · rw [he]
          · have := ihg p hm
            omega
        · rw [List.map_cons, List.chain'_cons']
          refine ⟨?_, ihc⟩
          intro h hh
          rcases List.head?_eq_some_iff.mp hh with ⟨l2, hl2⟩
          have hmem : h ∈ (scanAll m t f (max e (pos + 1))).map Prod.fst := by
            rw [hl2]
            exact List.mem_cons_self _ _
          rcases List.mem_map.mp hmem with ⟨q, hq, hqe⟩
          have := ihg q hq
          omega
      | none =>
        simp only [hme]
        obtain ⟨ihg, ihc⟩ := ih (pos + 1)
        refine ⟨?_, ihc⟩
        intro p hp2
        have := ihg p hp2
        omega
    · rw [if_neg hp]
      refine ⟨?_, ?_⟩
      · intro p hp2
        simp at hp2
      · rw [List.map_nil]
        exact List.chain'_nil

theorem matchStarts_chain (m : List Char → Nat → Option Nat) (t : List Char) :
    List.Chain' (· ≤ ·) (matchStarts m t) :=
  (scanAll_ge_chain m t t.length 0).2

theorem tryMarkerPats_spec (t : List Char) (tp : Nat) (htp : 1 ≤ tp) :
    ∀ pats pages, tryMarkerPats t tp pats = some pages →
      pages.length = tp ∧ nonWS pages.flatten = nonWS t := by
  intro pats
  induction pats with
  | nil => intro pages h; exact absurd h (by simp [tryMarkerPats])
  | cons m ms ih =>
    intro pages h
    rw [tryMarkerPats] at h
    by_cases hg : 0 < (matchStarts m t).length ∧ (matchStarts m t).length ≤ tp * 2
    · rw [if_pos hg] at h
      by_cases hl : 1 < (splitByMarkers t (matchStarts m t)).length
      · rw [if_pos hl] at h
        have hne : matchStarts m t ≠ [] := by
          intro hnil
          rw [hnil] at hg
          simp at hg
        have hpne : splitByMarkers t (matchStarts m t) ≠ [] := by
          intro hnil
          rw [hnil] at hl
          simp at hl
        obtain ⟨a1, a2, _⟩ :=
          adjustToPageCount_spec (splitByMarkers t (matchStarts m t)) tp hpne htp
        have hsm := splitByMarkers_nonWS t (matchStarts m t) hne (matchStarts_chain m t)
        refine ⟨?_, ?_⟩
        · rw [← Option.some_inj.mp h, a1]
        · rw [← Option.some_inj.mp h, a2, hsm]
      · rw [if_neg hl] at h
        exact ih pages h
    · rw [if_neg hg] at h
      exact ih pages h

theorem idxFromGo_ge (t pat : List Char) :
    ∀ fuel s i, idxFromGo t pat fuel s = some i → s ≤ i := by
  intro fuel
  induction fuel with
  | zero => intro s i h; exact absurd h (by simp [idxFromGo])
  | succ f ih =>
    intro s i h
    rw [idxFromGo] at h
    by_cases hb : s + pat.length ≤ t.length
    · rw [if_pos hb] at h
      by_cases hpre : pat.isPrefixOf (t.drop s)
      · rw [if_pos hpre] at h
        have := Option.some_inj.mp h
        omega
      · rw [if_neg hpre] at h
        have := ih (s + 1) i h
        omega
    · rw [if_neg hb] at h
      exact absurd h (by simp)

theorem collectIdxGo_ge_chain (t pat : List Char) :
    ∀ fuel s,
      (∀ i ∈ collectIdxGo t pat fuel s, s ≤ i) ∧
      List.Chain' (· ≤ ·) (collectIdxGo t pat fuel s) := by
  intro fuel
  induction fuel with
  | zero =>
    intro s
    exact ⟨by intro i hi; simp [collectIdxGo] at hi, List.chain'_nil⟩
  | succ f ih =>
    intro s
    have hunf : collectIdxGo t pat (f + 1) s =
        (match indexOfFrom t pat s with
          | none => []
          | some i => i :: collectIdxGo t pat f (i + pat.length)) := rfl
    rw [hunf]
    cases hme : indexOfFrom t pat s with
    | none =>
      simp only [hme]
      exact ⟨by intro i hi; simp at hi, List.chain'_nil⟩
    | some i =>
      simp only [hme]
      have hsi : s ≤ i := idxFromGo_ge t pat (t.length + 1) s i hme
      obtain ⟨ihg, ihc⟩ := ih (i + pat.length)
      constructor
      · intro x hx
        rcases List.mem_cons.mp hx with he | hm
        · omega
        · have := ihg x hm
          omega
      · rw [List.chain'_cons']
        refine ⟨?_, ihc⟩
        intro h hh
        rcases List.head?_eq_some_iff.mp hh with ⟨l2, hl2⟩
        have hmem : h ∈ collectIdxGo t pat f (i + pat.length) := by
          rw [hl2]
          exact List.mem_cons_self _ _
        have := ihg h hmem
        omega

theorem collectIdx_chain (t pat : List Char) :
    List.Chain' (· ≤ ·) (collectIdx t pat) :=
  (collectIdxGo_ge_chain t pat (t.length + 1) 0).2

theorem detectTry_spec (t : List Char) (tp : Nat) (htp : 1 ≤ tp) :
    ∀ cands, detectTry t tp cands = [] ∨
      ((detectTry t tp cands).length = tp ∧
        nonWS (detectTry t tp cands).flatten = nonWS t) := by
  intro cands
  induction cands with
  | nil => exact Or.inl rfl
  | cons cand rest ih =>
    rw [detectTry]
    by_cases hg : 2 ≤ (collectIdx t cand).length
    · rw [if_pos hg]
      by_cases hl : 1 < (splitByMarkers t (collectIdx t cand)).length
      · rw [if_pos hl]
        have hne : collectIdx t cand ≠ [] := by
          intro hnil
          rw [hnil] at hg
          simp at hg
        have hpne : splitByMarkers t (collectIdx t cand) ≠ [] := by
          intro hnil
          rw [hnil] at hl
          simp at hl
        obtain ⟨a1, a2, _⟩ :=
          adjustToPageCount_spec (splitByMarkers t (collectIdx t cand)) tp hpne htp
        have hsm := splitByMarkers_nonWS t (collectIdx t cand) hne (collectIdx_chain t cand)
        exact Or.inr ⟨a1, by rw [a2, hsm]⟩
      · rw [if_neg hl]
        exact ih
    · rw [if_neg hg]
      exact ih

theorem detectByRepeatedElements_spec (t : List Char) (tp : Nat) (htp : 1 ≤ tp) :
    detectByRepeatedElements t tp = [] ∨
      ((detectByRepeatedElements t tp).length = tp ∧
        nonWS (detectByRepeatedElements t tp).flatten = nonWS t) :=
  detectTry_spec t tp htp _

theorem lastIdxOf_lt_length (c : Char) :
    ∀ l k, lastIdxOf c l = some k → k < l.length := by
  intro l
  induction l with
  | nil => intro k h; exact absurd h (by simp [lastIdxOf])
  | cons a rest ih =>
    intro k h
    rw [lastIdxOf] at h
    cases hr : lastIdxOf c rest with
    | some k2 =>
      rw [hr] at h
      have := ih k2 hr
      have hk : k = k2 + 1 := (Option.some_inj.mp h).symm
      simp [hk, List.length_cons]
      omega
    | none =>
      rw [hr] at h
      by_cases ha : a = c
      · rw [if_pos ha] at h
        have hk : k = 0 := (Option.some_inj.mp h).symm
        simp [hk]
      · rw [if_neg ha] at h
        exact absurd h (by simp)

theorem nonWS_eq_nil_of_all_ws (l : List Char) (h : ∀ c ∈ l, isWS c) :
    nonWS l = [] := by
  rw [nonWS, List.filter_eq_nil_iff]
  intro c hc
  simp [h c hc]

theorem sepMatch_spec (t : List Char) (i e : Nat) (h : sepMatch t i = some e) :
    i ≤ e ∧ nonWS (sub t i e) = [] := by
  rw [sepMatch] at h
  by_cases hi : t[i]? = some '\n'
  · rw [if_pos hi] at h
    rw [wsNewlineEnd] at h
    cases hk : lastIdxOf '\n' ((t.drop (i + 1)).takeWhile isWS) with
    | none => rw [hk] at h; exact absurd h (by simp)
    | some k =>
      rw [hk] at h
      have he : e = i + 1 + k + 1 := (Option.some_inj.mp h).symm
      have hkl := lastIdxOf_lt_length '\n' _ k hk
      refine ⟨by omega, ?_⟩
      have hilt : i < t.length := (List.getElem?_eq_some.mp hi).1
      have hdrop : t.drop i = '\n' :: t.drop (i + 1) := by
        rw [List.drop_eq_getElem_cons hilt]
        have : t[i] = '\n' := by
          have := (List.getElem?_eq_some.mp hi).2
          exact this
        rw [this]
      have hsub : sub t i e = '\n' :: (t.drop (i + 1)).take (k + 1) := by
        rw [sub, hdrop, he]
        have : i + 1 + k + 1 - i = k + 2 := by omega
        rw [this, List.take_succ_cons]
      rw [hsub]
      apply nonWS_eq_nil_of_all_ws
      intro c hc
      rcases List.mem_cons.mp hc with hnl | hmem
      · rw [hnl]
        rfl
      · have hpre : (t.drop (i + 1)).take (k + 1) =
            ((t.drop (i + 1)).takeWhile isWS).take (k + 1) := by
          conv_lhs =>
            rw [← List.takeWhile_append_dropWhile (p := isWS) (l := t.drop (i + 1))]
          rw [List.take_append_of_le_length (by omega)]
        rw [hpre] at hmem
        have : c ∈ (t.drop (i + 1)).takeWhile isWS := List.mem_of_mem_take hmem
        exact List.mem_takeWhile_imp this
  · rw [if_neg hi] at h
    exact absurd h (by simp)

theorem pieces_nonWS (t : List Char) (m : List Char → Nat → Option Nat)
    (hm : ∀ i e, m t i = some e → i ≤ e ∧ nonWS (sub t i e) = []) :
    ∀ fuel pos cur, cur ≤ pos →
      nonWS (piecesBetween t cur (scanAll m t fuel pos)).flatten =
        nonWS (t.drop cur) := by
  intro fuel
  induction fuel with
  | zero =>
    intro pos cur _
    show nonWS ([sub t cur t.length] : List (List Char)).flatten = _
    rw [sub_self_len]
    simp
  | succ f ih =>
    intro pos cur hcp
    have hunf : scanAll m t (f + 1) pos =
        (if pos < t.length then
          match m t pos with
          | some e => (pos, e) :: scanAll m t f (max e (pos + 1))
          | none => scanAll m t f (pos + 1)
        else []) := rfl
    rw [hunf]
    by_cases hp : pos < t.length
    · rw [if_pos hp]
      cases hme : m t pos with
      | some e =>
        simp only [hme]
        obtain ⟨hpe, hws⟩ := hm pos e hme
        rw [piecesBetween, List.flatten_cons, nonWS_append]
        have hrec := ih (max e (pos + 1)) e (by omega)
        rw [hrec]
        rw [drop_eq_sub_append t cur pos hcp, drop_eq_sub_append t pos e hpe]
        rw [nonWS_append, nonWS_append, hws]
        simp
      | none =>
        simp only [hme]
        exact ih (pos + 1) cur (by omega)
    · rw [if_neg hp]
      show nonWS ([sub t cur t.length] : List (List Char)).flatten = _
      rw [sub_self_len]
      simp

theorem splitParas_nonWS (t : List Char) :
    nonWS (splitParas t).flatten = nonWS t := by
  have := pieces_nonWS t sepMatch (fun i e h => sepMatch_spec t i e h) t.length 0 0
    (Nat.le_refl 0)
  rw [splitParas]
  simpa using this

theorem nonWS_trimPush (pages : List (List Char)) (cur : List Char) :
    nonWS (pages ++ (if 0 < (jsTrim cur).length then [jsTrim cur] else [])).flatten =
      nonWS pages.flatten ++ nonWS cur := by
  rw [List.flatten_append, nonWS_append, nonWS_trimOpt, nonWS_jsTrim]

theorem statLoop_nonWS (cond : Nat → Bool) (tp : Nat) :
    ∀ paras pages cur curLen,
      nonWS (statLoop cond tp paras pages cur curLen).flatten =
        nonWS pages.flatten ++ nonWS cur ++ nonWS paras.flatten := by
  intro paras
  induction paras with
  | nil =>
    intro pages cur curLen
    rw [statLoop, nonWS_trimPush]
    simp [nonWS]
  | cons para rest ih =>
    intro pages cur curLen
    rw [statLoop]
    by_cases hc : cond curLen && decide (pages.length < tp - 1)
    · rw [if_pos hc, ih, nonWS_trimPush, List.flatten_cons, nonWS_append]
      simp [List.append_assoc]
    · rw [if_neg hc, ih]
      have hcur : nonWS (cur ++ (if cur.isEmpty then para else '\n' :: '\n' :: para)) =
          nonWS cur ++ nonWS para := by
        by_cases he : cur.isEmpty
        · rw [if_pos he, nonWS_append]
        · rw [if_neg he, nonWS_append]
          have h1 : nonWS ('\n' :: '\n' :: para) = nonWS para := by
            rw [nonWS, List.filter_cons, List.filter_cons]
            simp [show isWS '\n' = true from rfl]
            rfl
          rw [h1]
      rw [hcur, List.flatten_cons, nonWS_append]
      simp [List.append_assoc]

theorem statAnalysis_spec (cond : Nat → Bool) (t : List Char) (tp : Nat)
    (htp : 1 ≤ tp) :
    splitByStatisticalAnalysis cond t tp = [] ∨
      ((splitByStatisticalAnalysis cond t tp).length = tp ∧
        nonWS (splitByStatisticalAnalysis cond t tp).flatten = nonWS t) := by
  rw [splitByStatisticalAnalysis]
  by_cases hpar : (splitParas t).length < tp
  · rw [if_pos hpar]
    exact Or.inl rfl
  · rw [if_neg hpar]
    by_cases hlen : 1 < (statLoop cond tp (splitParas t) [] [] 0).length
    · rw [if_pos hlen]
      have hne : statLoop cond tp (splitParas t) [] [] 0 ≠ [] := by
        intro hnil
        rw [hnil] at hlen
        simp at hlen
      obtain ⟨a1, a2, _⟩ :=
        adjustToPageCount_spec (statLoop cond tp (splitParas t) [] [] 0) tp hne htp
      refine Or.inr ⟨a1, ?_⟩
      rw [a2, statLoop_nonWS, splitParas_nonWS]
      rfl
    · rw [if_neg hlen]
      exact Or.inl rfl

theorem equalParts_cover (t : List Char) (tp ps : Nat) :
    ∀ d j, j + d = tp → 1 ≤ d →
      nonWS ((List.range' j d).map (fun i => jsTrim (sub t (i * ps)
        (if i = tp - 1 then t.length else (i + 1) * ps)))).flatten =
        nonWS (t.drop (j * ps)) := by
  intro d
  induction d with
  | zero => intro j _ h1; omega
  | succ d' ih =>
    intro j hj _
    have hr : List.range' j (d' + 1) = j :: List.range' (j + 1) d' := by
      have := List.range'_succ j d' 1
      simpa using this
    rw [hr, List.map_cons, List.flatten_cons, nonWS_append]
    cases d' with
    | zero =>
      have hlast : j = tp - 1 := by omega
      rw [if_pos hlast, nonWS_jsTrim, sub_self_len]
      simp [nonWS]
    | succ d'' =>
      have hnl : ¬ j = tp - 1 := by omega
      rw [if_neg hnl]
      have hrec := ih (j + 1) (by omega) (by omega)
      rw [hrec, nonWS_jsTrim]
      have hmul : j * ps ≤ (j + 1) * ps := by
        exact Nat.mul_le_mul_right ps (by omega)
      rw [drop_eq_sub_append t (j * ps) ((j + 1) * ps) hmul, nonWS_append]

theorem equalParts_spec (t : List Char) (tp : Nat) (htp : 1 ≤ tp) :
    (splitIntoEqualParts t tp).length = tp ∧
      nonWS (splitIntoEqualParts t tp).flatten = nonWS t := by
  constructor
  · rw [splitIntoEqualParts]
    simp
  · rw [splitIntoEqualParts]
    have := equalParts_cover t tp (t.length / tp) tp 0 (by omega) htp
    rw [List.range_eq_range']
    simpa using this

theorem splitIntoPagesWith_spec (cond : Nat → Bool) (t : List Char) (tp : Nat)
    (htp : 1 ≤ tp) :
    (splitIntoPagesWith cond t tp).length = tp ∧
      nonWS (splitIntoPagesWith cond t tp).flatten = nonWS t := by
  rw [splitIntoPagesWith]
  cases htm : tryMarkerPats t tp markerPats with
  | some pages =>
    exact tryMarkerPats_spec t tp htp markerPats pages htm
  | none =>
    simp only
    by_cases hfh : 1 < (detectByRepeatedElements t tp).length
    · rw [if_pos hfh]
      rcases detectByRepeatedElements_spec t tp htp with hnil | hok
      · rw [hnil] at hfh
        simp at hfh
      · exact hok
    · rw [if_neg hfh]
      by_cases hst : 1 < (splitByStatisticalAnalysis cond t tp).length
      · rw [if_pos hst]
        rcases statAnalysis_spec cond t tp htp with hnil | hok
        · rw [hnil] at hst
          simp at hst
        · exact hok
      · rw [if_neg hst]
        exact equalParts_spec t tp htp

theorem adjustToPageCount_eq_of_length_eq (pages : List (List Char)) (target : Nat)
    (h : pages.length = target) : adjustToPageCount pages target = pages := by
  have hnl : ¬ pages.length < target := by
    rw [h]
    exact Nat.lt_irrefl target
  have hng : ¬ target < pages.length := by
    rw [h]
    exact Nat.lt_irrefl target
  have hg : adjustGrow target target pages = pages := by
    cases target with
    | zero => rfl
    | succ t => simp [adjustGrow, hnl]
  have hs : adjustShrink target pages.length pages = pages := by
    cases hp : pages.length with
    | zero => rfl
    | succ n =>
      simp [adjustShrink, hng]
  rw [adjustToPageCount, hg, hs]

/-- C1: for every non-empty full text and every declared page count of at
least 1, the page segmenter `splitIntoPages` (a total function: it never
raises) returns exactly `declaredPageCount` strings, and the concatenation
of the result carries exactly the non-whitespace characters of the original
text in their original order — content is only split or merged (with
whitespace-only adjustments at the seams), never reordered. -/
theorem claim_C1 (fullText : List Char) (declaredPageCount : Nat)
    (hne : fullText ≠ []) (hpc : 1 ≤ declaredPageCount) :
    (splitIntoPages fullText declaredPageCount).length = declaredPageCount ∧
      nonWS (splitIntoPages fullText declaredPageCount).flatten = nonWS fullText :=
  splitIntoPagesWith_spec _ fullText declaredPageCount hpc

/-- Witness for C1 at a concrete input: a two-page text separated by a form
feed character. -/
theorem claim_C1_witness :
    ("ab\x0ccd".toList ≠ [] ∧ 1 ≤ 2) ∧
      ((splitIntoPages "ab\x0ccd".toList 2).length = 2 ∧
        nonWS (splitIntoPages "ab\x0ccd".toList 2).flatten = nonWS "ab\x0ccd".toList) :=
  ⟨⟨by decide, by decide⟩, claim_C1 "ab\x0ccd".toList 2 (by decide) (by decide)⟩

/-- C2: `adjustToPageCount` is the identity on a page list whose length
already equals the target count. -/
theorem claim_C2 (pages : List (List Char)) (target : Nat)
    (h : pages.length = target) : adjustToPageCount pages target = pages :=
  adjustToPageCount_eq_of_length_eq pages target h

/-- Witness for C2 at a concrete input. -/
theorem claim_C2_witness :
    (["ab".toList, "c".toList].length = 2) ∧
      adjustToPageCount ["ab".toList, "c".toList] 2 = ["ab".toList, "c".toList] :=
  ⟨by decide, claim_C2 ["ab".toList, "c".toList] 2 (by decide)⟩

theorem pageDocsGo_eq_nil_imp (l : List (List Char)) :
    ∀ i, pageDocsGo i l = [] → nonWS l.flatten = [] := by
  induction l with
  | nil => intro i _; rfl
  | cons p rest ih =>
    intro i h
    rw [pageDocsGo] at h
    by_cases hp : 0 < (jsTrim p).length
    · rw [if_pos hp] at h
      simp at h
    · rw [if_neg hp] at h
      simp only [List.nil_append] at h
      have h2 := ih (i + 1) h
      have hpnil : jsTrim p = [] := by
        cases he : jsTrim p with
        | nil => rfl
        | cons a b => rw [he] at hp; simp at hp
      have hnp : nonWS p = [] := (jsTrim_eq_nil_iff p).mp hpnil
      rw [List.flatten_cons, nonWS_append, hnp, h2]
      rfl

theorem pageDocs_ne_nil (t : List Char) (n : Nat) (hnw : nonWS t ≠ [])
    (hn : 1 ≤ n) : pageDocs (splitIntoPages t n) ≠ [] := by
  intro h
  have h2 := pageDocsGo_eq_nil_imp (splitIntoPages t n) 0 h
  have h3 := (splitIntoPagesWith_spec (condDefault t.length n) t n hn).2
  rw [show splitIntoPagesWith (condDefault t.length n) t n = splitIntoPages t n
    from rfl] at h3
  rw [h2] at h3
  exact hnw h3.symm

theorem generateEmbeddings_success (isBuffer : Bool) (fileLen : Nat) (pd : PdfData)
    (persistFails : Bool) (g : Option (List (Nat × List Char)))
    (hb : isBuffer) (hl : 0 < fileLen) (ht : jsTrim pd.text ≠ [])
    (hn : 1 ≤ pd.numpages) :
    generateEmbeddings isBuffer fileLen (.ok pd) none persistFails g =
      ⟨.ok (pageDocs (splitIntoPages pd.text pd.numpages)),
       some (pageDocs (splitIntoPages pd.text pd.numpages)), persistFails⟩ := by
  have hcond : ¬ (¬ isBuffer ∨ fileLen = 0) := by
    simp [hb]
    omega
  have htl : ¬ (jsTrim pd.text).length = 0 := by
    intro h0
    exact ht (List.length_eq_zero.mp h0)
  have hnw : nonWS pd.text ≠ [] := by
    intro h0
    exact ht ((jsTrim_eq_nil_iff pd.text).mpr h0)
  have hdocs : ¬ (pageDocs (splitIntoPages pd.text pd.numpages)).length = 0 := by
    intro h0
    exact pageDocs_ne_nil pd.text pd.numpages hnw hn (List.length_eq_zero.mp h0)
  simp only [generateEmbeddings]
  rw [if_neg hcond]
  simp only [if_neg htl, if_neg hdocs]

/-- C3: ingestion fails with the invalid-buffer error exactly when the
input is not a buffer or is empty, fails with the wrapped empty-document
error when the extracted text is whitespace-only, fails with the wrap of
the underlying extraction error when extraction throws, succeeds otherwise,
and the three failure kinds have pairwise distinct messages (the wrapped
extraction error is distinct from the wrapped empty-document error whenever
the extraction library's own message is not the fixed empty-document
string). -/
theorem claim_C3 (isBuffer : Bool) (fileLen : Nat)
    (parse : Except (List Char) PdfData) (buildErr : Option (List Char))
    (persistFails : Bool) (g : Option (List (Nat × List Char))) :
    ((¬ isBuffer ∨ fileLen = 0) →
      (generateEmbeddings isBuffer fileLen parse buildErr persistFails g).result =
        .error invalidBufferMsg) ∧
    (∀ m, isBuffer → 0 < fileLen → parse = .error m →
      (generateEmbeddings isBuffer fileLen parse buildErr persistFails g).result =
        .error (processFailMsg m)) ∧
    (∀ pd, isBuffer → 0 < fileLen → parse = .ok pd → jsTrim pd.text = [] →
      (generateEmbeddings isBuffer fileLen parse buildErr persistFails g).result =
        .error (processFailMsg noTextMsg)) ∧
    (∀ pd, isBuffer → 0 < fileLen → parse = .ok pd → jsTrim pd.text ≠ [] →
      1 ≤ pd.numpages → buildErr = none →
      (generateEmbeddings isBuffer fileLen parse buildErr persistFails g).result =
        .ok (pageDocs (splitIntoPages pd.text pd.numpages))) ∧
    (∀ m, invalidBufferMsg ≠ processFailMsg m) ∧
    (∀ m, m ≠ noTextMsg → processFailMsg m ≠ processFailMsg noTextMsg) := by
  refine ⟨?_, ?_, ?_, ?_, ?_, ?_⟩
  · intro h
    simp only [generateEmbeddings]
    rw [if_pos h]
  · intro m hb hl hp
    have hcond : ¬ (¬ isBuffer ∨ fileLen = 0) := by
      simp [hb]
      omega
    rw [hp]
    simp only [generateEmbeddings]
    rw [if_neg hcond]
  · intro pd hb hl hp ht
    have hcond : ¬ (¬ isBuffer ∨ fileLen = 0) := by
      simp [hb]
      omega
    have htl : (jsTrim pd.text).length = 0 := by
      rw [ht]
      rfl
    rw [hp]
    simp only [generateEmbeddings]
    rw [if_neg hcond]
    simp only [if_pos htl]
  · intro pd hb hl hp ht hn hbuild
    rw [hp, hbuild, generateEmbeddings_success isBuffer fileLen pd persistFails g
      hb hl ht hn]
  · intro m h
    have h2 := congrArg (fun l => l.head?) h
    simp [invalidBufferMsg, processFailMsg] at h2
  · intro m hm h
    exact hm (List.append_cancel_left h)

/-- Witness for C3 at concrete inputs exercising each of the four cases. -/
theorem claim_C3_witness :
    (generateEmbeddings false 0 (.error "x".toList) none false none).result =
        .error invalidBufferMsg ∧
    (generateEmbeddings true 4 (.error "boom".toList) none false none).result =
        .error (processFailMsg "boom".toList) ∧
    (generateEmbeddings true 4 (.ok ⟨"  ".toList, 1⟩) none false none).result =
        .error (processFailMsg noTextMsg) ∧
    (generateEmbeddings true 4 (.ok ⟨"hi".toList, 1⟩) none false none).result =
        .ok (pageDocs (splitIntoPages "hi".toList 1)) :=
  ⟨(claim_C3 false 0 (.error "x".toList) none false none).1 (Or.inl (by decide)),
   (claim_C3 true 4 (.error "boom".toList) none false none).2.1 "boom".toList
     rfl (by decide) rfl,
   (claim_C3 true 4 (.ok ⟨"  ".toList, 1⟩) none false none).2.2.1 ⟨"  ".toList, 1⟩
     rfl (by decide) rfl (by decide),
   (claim_C3 true 4 (.ok ⟨"hi".toList, 1⟩) none false none).2.2.2.1 ⟨"hi".toList, 1⟩
     rfl (by decide) rfl (by decide) (by decide) rfl⟩

/-- C4: when the index is built successfully, a persistence failure is
logged and swallowed: `generateEmbeddings` still succeeds, returns the very
same index as a run whose persistence succeeds, and the process-wide index
is set to it. -/
theorem claim_C4 (fileLen : Nat) (pd : PdfData)
    (g : Option (List (Nat × List Char))) (hl : 0 < fileLen)
    (ht : jsTrim pd.text ≠ []) (hn : 1 ≤ pd.numpages) :
    (generateEmbeddings true fileLen (.ok pd) none true g).result =
      .ok (pageDocs (splitIntoPages pd.text pd.numpages)) ∧
    (generateEmbeddings true fileLen (.ok pd) none true g).result =
      (generateEmbeddings true fileLen (.ok pd) none false g).result ∧
    (generateEmbeddings true fileLen (.ok pd) none true g).globalIndex =
      some (pageDocs (splitIntoPages pd.text pd.numpages)) ∧
    (generateEmbeddings true fileLen (.ok pd) none true g).persistFailLogged = true := by
  rw [generateEmbeddings_success true fileLen pd true g rfl hl ht hn,
    generateEmbeddings_success true fileLen pd false g rfl hl ht hn]
  exact ⟨rfl, rfl, rfl, rfl⟩

theorem getRetriever_result_reload (fs : FsState) (pErr lErr : Option (List Char)) :
    (getRetriever none fs pErr lErr).result = collapseErr (reloadBody fs pErr lErr) := by
  cases hc : collapseErr (reloadBody fs pErr lErr) with
  | ok idx => simp [getRetriever, hc]
  | error m => simp [getRetriever, hc]

theorem collapseErr_notFound : collapseErr (.error notFoundMsg) = .error notFoundMsg := by
  simp only [collapseErr]
  split <;> rfl

theorem collapseErr_empty : collapseErr (.error emptyPersistMsg) = .error emptyPersistMsg := by
  simp only [collapseErr]
  rw [if_pos]
  show (containsSub emptyPersistMsg notFoundKey || containsSub emptyPersistMsg emptyPersistKey) = true
  decide

theorem collapseErr_other (m : List Char) (h1 : containsSub m notFoundKey = false)
    (h2 : containsSub m emptyPersistKey = false) :
    collapseErr (.error m) = .error notFoundMsg := by
  simp only [collapseErr]
  rw [if_neg]
  rw [h1, h2]
  simp

theorem reloadBody_noVS (fs : FsState) (pErr lErr : Option (List Char))
    (h : fs.vectorStoreFile = none) : reloadBody fs pErr lErr = .error notFoundMsg := by
  simp [reloadBody, h]

theorem reloadBody_pagesOk (fs : FsState) (pErr lErr : Option (List Char))
    (c : List Char) (idx : IndexModel) (h : fs.vectorStoreFile = some c)
    (hpa : pagesAttempt fs.pagesFile pErr = some idx) :
    reloadBody fs pErr lErr = .ok idx := by
  simp [reloadBody, h, hpa]

theorem reloadBody_noDoc (fs : FsState) (pErr lErr : Option (List Char))
    (c : List Char) (h : fs.vectorStoreFile = some c)
    (hpa : pagesAttempt fs.pagesFile pErr = none) (hdf : fs.documentFile = none) :
    reloadBody fs pErr lErr = .error notFoundMsg := by
  simp [reloadBody, h, hpa, hdf]

theorem reloadBody_legacy (fs : FsState) (pErr lErr : Option (List Char))
    (c text : List Char) (h : fs.vectorStoreFile = some c)
    (hpa : pagesAttempt fs.pagesFile pErr = none)
    (hdf : fs.documentFile = some text) :
    reloadBody fs pErr lErr =
      (if (jsTrim text).length = 0 then .error emptyPersistMsg
       else match lErr with
         | some m => .error m
         | none => .ok (.fromLegacy text)) := by
  simp [reloadBody, h, hpa, hdf]

/-- C5: with no in-memory index, `getRetriever` fails with exactly the
not-found message when the persisted vector store file is absent, with
exactly the empty-persisted-text message when the persisted files exist but
the document text is whitespace-only (and the page-aware branch fell
through), collapses any other reload error (whose message does not contain
the two matched substrings) to the not-found message, and in all cases only
those two named messages ever propagate. -/
theorem claim_C5 (fs : FsState) (pErr lErr : Option (List Char)) :
    (fs.vectorStoreFile = none →
      (getRetriever none fs pErr lErr).result = .error notFoundMsg) ∧
    (∀ c text, fs.vectorStoreFile = some c →
      pagesAttempt fs.pagesFile pErr = none →
      fs.documentFile = some text → jsTrim text = [] →
      (getRetriever none fs pErr lErr).result = .error emptyPersistMsg) ∧
    (∀ c text m, fs.vectorStoreFile = some c →
      pagesAttempt fs.pagesFile pErr = none →
      fs.documentFile = some text → jsTrim text ≠ [] → lErr = some m →
      containsSub m notFoundKey = false → containsSub m emptyPersistKey = false →
      (getRetriever none fs pErr lErr).result = .error notFoundMsg) ∧
    ((∀ m, lErr = some m → containsSub m notFoundKey = false ∧
        containsSub m emptyPersistKey = false) →
      ∀ e, (getRetriever none fs pErr lErr).result = .error e →
        e = notFoundMsg ∨ e = emptyPersistMsg) := by
  refine ⟨?_, ?_, ?_, ?_⟩
  · intro h
    rw [getRetriever_result_reload, reloadBody_noVS fs pErr lErr h,
      collapseErr_notFound]
  · intro c text hvs hpa hdf ht
    have htl : (jsTrim text).length = 0 := by rw [ht]; rfl
    have hrb : reloadBody fs pErr lErr = .error emptyPersistMsg := by
      rw [reloadBody_legacy fs pErr lErr c text hvs hpa hdf, if_pos htl]
    rw [getRetriever_result_reload, hrb, collapseErr_empty]
  · intro c text m hvs hpa hdf ht hle h1 h2
    have htl : ¬ (jsTrim text).length = 0 := by
      intro h0
      exact ht (List.length_eq_zero.mp h0)
    have hrb : reloadBody fs pErr lErr = .error m := by
      rw [reloadBody_legacy fs pErr lErr c text hvs hpa hdf, if_neg htl, hle]
    rw [getRetriever_result_reload, hrb, collapseErr_other m h1 h2]
  · intro hclean e he
    rw [getRetriever_result_reload] at he
    cases hvs : fs.vectorStoreFile with
    | none =>
      rw [reloadBody_noVS fs pErr lErr hvs, collapseErr_notFound] at he
      exact Or.inl (by injection he with h; exact h.symm)
    | some c =>
      cases hpa : pagesAttempt fs.pagesFile pErr with
      | some idx =>
        rw [reloadBody_pagesOk fs pErr lErr c idx hvs hpa] at he
        exact absurd he (by simp [collapseErr])
      | none =>
        cases hdf : fs.documentFile with
        | none =>
          rw [reloadBody_noDoc fs pErr lErr c hvs hpa hdf,
            collapseErr_notFound] at he
          exact Or.inl (by injection he with h; exact h.symm)
        | some text =>
          have hleg := reloadBody_legacy fs pErr lErr c text hvs hpa hdf
          by_cases htl : (jsTrim text).length = 0
          · rw [if_pos htl] at hleg
            rw [hleg, collapseErr_empty] at he
            exact Or.inr (by injection he with h; exact h.symm)
          · rw [if_neg htl] at hleg
            cases hle : lErr with
            | none =>
              subst hle
              rw [hleg] at he
              exact absurd he (by simp [collapseErr])
            | some m =>
              subst hle
              obtain ⟨h1, h2⟩ := hclean m rfl
              rw [hleg, collapseErr_other m h1 h2] at he
              exact Or.inl (by injection he with h; exact h.symm)

/-- Witness for C5 at concrete inputs exercising the three failure modes. -/
theorem claim_C5_witness :
    (getRetriever none ⟨none, none, none⟩ none none).result = .error notFoundMsg ∧
    (getRetriever none ⟨some "v".toList, none, some "  ".toList⟩ none none).result =
      .error emptyPersistMsg ∧
    (getRetriever none ⟨some "v".toList, none, some "doc".toList⟩ none
      (some "boom".toList)).result = .error notFoundMsg ∧
    (∀ e, (getRetriever none ⟨some "v".toList, some .malformed, none⟩ none
      none).result = .error e → e = notFoundMsg ∨ e = emptyPersistMsg) :=
  ⟨(claim_C5 ⟨none, none, none⟩ none none).1 rfl,
   (claim_C5 ⟨some "v".toList, none, some "  ".toList⟩ none none).2.1
     "v".toList "  ".toList rfl rfl rfl (by decide),
   (claim_C5 ⟨some "v".toList, none, some "doc".toList⟩ none
     (some "boom".toList)).2.2.1 "v".toList "doc".toList "boom".toList
     rfl rfl rfl (by decide) rfl (by decide) (by decide),
   (claim_C5 ⟨some "v".toList, some .malformed, none⟩ none none).2.2.2
     (by intro m hm; cases hm)⟩

/-- C6: with no in-memory index, a pages.json that is malformed, not an
array, an empty array, or all-blank does not abort retrieval — the whole
call behaves exactly as if pages.json were absent (legacy fallback); a good
pages.json is preferred and yields the page-aware index; every successful
reload re-populates the process-wide singleton; and with the singleton set,
any later call returns it untouched regardless of the filesystem. -/
theorem claim_C6 (fs : FsState) (pErr lErr : Option (List Char)) :
    (∀ pj, fs.pagesFile = some pj →
      (pj = .malformed ∨ pj = .notArray ∨ pj = .arr [] ∨
        (∃ items, pj = .arr items ∧
          items.filter (fun d => 0 < (jsTrim d.2).length) = [])) →
      getRetriever none fs pErr lErr =
        getRetriever none {fs with pagesFile := none} pErr lErr) ∧
    (∀ items c, fs.pagesFile = some (.arr items) → fs.vectorStoreFile = some c →
      0 < items.length →
      0 < (items.filter (fun d => 0 < (jsTrim d.2).length)).length →
      pErr = none →
      getRetriever none fs pErr lErr =
        ⟨.ok (.fromPages (items.filter (fun d => 0 < (jsTrim d.2).length))),
         some (.fromPages (items.filter (fun d => 0 < (jsTrim d.2).length)))⟩) ∧
    (∀ idx, (getRetriever none fs pErr lErr).result = .ok idx →
      (getRetriever none fs pErr lErr).globalAfter = some idx) ∧
    (∀ idx fs2 p2 l2, getRetriever (some idx) fs2 p2 l2 =
      ⟨.ok idx, some idx⟩) := by
  refine ⟨?_, ?_, ?_, ?_⟩
  · intro pj hpf hbad
    have hpa : pagesAttempt fs.pagesFile pErr = none := by
      rw [hpf]
      rcases hbad with h | h | h | ⟨items, hi, hfil⟩
      · rw [h]; rfl
      · rw [h]; rfl
      · rw [h]; rfl
      · rw [hi]
        simp only [pagesAttempt]
        by_cases hil : items.length = 0
        · rw [if_pos hil]
        · rw [if_neg hil, hfil]
          simp
    have hnone : pagesAttempt (none : Option PagesJson) pErr = none := rfl
    have hrb : reloadBody fs pErr lErr =
        reloadBody {fs with pagesFile := none} pErr lErr := by
      simp [reloadBody, hpa, hnone]
    simp [getRetriever, hrb]
  · intro items c hpf hvs hil hfl hpe
    have hpa : pagesAttempt fs.pagesFile pErr =
        some (.fromPages (items.filter (fun d => 0 < (jsTrim d.2).length))) := by
      rw [hpf, hpe]
      simp only [pagesAttempt]
      rw [if_neg (by omega), if_neg (by omega)]
    have hrb := reloadBody_pagesOk fs pErr lErr c _ hvs hpa
    simp [getRetriever, hrb, collapseErr]
  · intro idx h
    cases hc : collapseErr (reloadBody fs pErr lErr) with
    | ok i =>
      simp [getRetriever, hc] at h ⊢
      exact h
    | error m =>
      simp [getRetriever, hc] at h
  · intro idx fs2 p2 l2
    rfl

/-- Witness for C6 at concrete inputs: a malformed pages.json falls back to
the legacy path, a good one is preferred, and the in-memory singleton
short-circuits. -/
theorem claim_C6_witness :
    (getRetriever none ⟨some "v".toList, some .malformed, some "doc".toList⟩
        none none =
      getRetriever none ⟨some "v".toList, none, some "doc".toList⟩ none none) ∧
    (getRetriever none ⟨some "v".toList, some (.arr [(1, "pg".toList)]),
        some "doc".toList⟩ none none =
      ⟨.ok (.fromPages ([(1, "pg".toList)].filter
          (fun d => 0 < (jsTrim d.2).length))),
        some (.fromPages ([(1, "pg".toList)].filter
          (fun d => 0 < (jsTrim d.2).length)))⟩) ∧
    (getRetriever (some (.fromLegacy "doc".toList)) ⟨none, none, none⟩ none none =
      ⟨.ok (.fromLegacy "doc".toList), some (.fromLegacy "doc".toList)⟩) :=
  ⟨(claim_C6 ⟨some "v".toList, some .malformed, some "doc".toList⟩ none none).1
      .malformed rfl (Or.inl rfl),
   (claim_C6 ⟨some "v".toList, some (.arr [(1, "pg".toList)]), some "doc".toList⟩
      none none).2.1 [(1, "pg".toList)] "v".toList rfl rfl (by decide)
      (by decide) rfl,
   (claim_C6 ⟨none, none, none⟩ none none).2.2.2 (.fromLegacy "doc".toList)
      ⟨none, none, none⟩ none none⟩

/-- C10: the contents of an existing vector_store.json never influence
`getRetriever`: the file is only tested for existence, so two runs whose
persisted state differs only in the contents of that (present) file produce
identical results and identical final in-memory state. -/
theorem claim_C10 (g : Option IndexModel) (fs : FsState)
    (pErr lErr : Option (List Char)) (c1 c2 : List Char) :
    getRetriever g {fs with vectorStoreFile := some c1} pErr lErr =
      getRetriever g {fs with vectorStoreFile := some c2} pErr lErr := by
  have hrb : reloadBody {fs with vectorStoreFile := some c1} pErr lErr =
      reloadBody {fs with vectorStoreFile := some c2} pErr lErr := by
    simp [reloadBody]
  cases g with
  | some idx => rfl
  | none => simp [getRetriever, hrb]

/-- C7: when retrieval returns zero results, `queryRAG` never invokes the
LLM streaming call (the result is the same for every LLM oracle and the
call flag is false), returns an empty sources array and a stream whose
whole content is exactly the fixed no-results message, and appends that
exact message to the conversation memory as an assistant turn. -/
theorem claim_C7 (question : List Char) (mem : List ChatMsg)
    (llm : List Char → List (List Char)) (hq : jsTrim question ≠ []) :
    queryRAG question mem [] llm =
      .ok ⟨[noResultsMessage], [],
        mem ++ [⟨.user, question⟩, ⟨.assistant, noResultsMessage⟩], false⟩ := by
  have htl : ¬ (jsTrim question).length = 0 := by
    intro h0
    exact hq (List.length_eq_zero.mp h0)
  simp [queryRAG, htl]

/-- Witness for C7 at a concrete input, with an LLM oracle that would echo
the prompt — the zero-results short-circuit never consults it. -/
theorem claim_C7_witness :
    jsTrim "hi".toList ≠ [] ∧
    queryRAG "hi".toList [] [] (fun p => [p]) =
      .ok ⟨[noResultsMessage], [],
        [⟨.user, "hi".toList⟩, ⟨.assistant, noResultsMessage⟩], false⟩ :=
  ⟨by decide, claim_C7 "hi".toList [] (fun p => [p]) (by decide)⟩

theorem takeWhile_all_append (p : List Char → Bool) (a b : List (List Char))
    (h : a.all p) : (a ++ b).takeWhile p = a ++ b.takeWhile p := by
  induction a with
  | nil => rfl
  | cons x xs ih =>
    rw [List.all_cons, Bool.and_eq_true] at h
    rw [List.cons_append, List.takeWhile_cons, if_pos h.1, ih h.2]
    rfl

theorem takeWhile_not_all_append (p : List Char → Bool) (a b : List (List Char))
    (h : a.all p = false) : (a ++ b).takeWhile p = a.takeWhile p := by
  induction a with
  | nil => simp at h
  | cons x xs ih =>
    rw [List.all_cons] at h
    by_cases hx : p x
    · rw [hx] at h
      simp only [Bool.true_and] at h
      rw [List.cons_append, List.takeWhile_cons, if_pos hx, List.takeWhile_cons,
        if_pos hx, ih h]
    · rw [List.cons_append, List.takeWhile_cons, if_neg hx, List.takeWhile_cons,
        if_neg hx]

theorem processLines_spec (parse : List Char → Option Json) :
    ∀ lines, processLines parse lines =
      ((lines.takeWhile (fun l => !isDoneLine l)).filterMap (dataLineOut parse),
       !lines.all (fun l => !isDoneLine l)) := by
  intro lines
  induction lines with
  | nil => rfl
  | cons line rest ih =>
    by_cases hpre : dataTag.isPrefixOf line
    · by_cases hdone : jsTrim (line.drop 6) = doneTag
      · have hd : isDoneLine line = true := by
          simp [isDoneLine, hpre, hdone]
        simp [processLines, hpre, hdone, hd]
      · have hd : isDoneLine line = false := by
          simp [isDoneLine, hpre, hdone]
        cases hp : parse (jsTrim (line.drop 6)) with
        | none =>
          have hout : dataLineOut parse line = none := by
            simp [dataLineOut, hpre, hdone, hp]
          simp [processLines, hpre, hdone, hd, hp, hout, ih]
        | some j =>
          cases he : extractText j with
          | none =>
            have hout : dataLineOut parse line = none := by
              simp [dataLineOut, hpre, hdone, hp, he]
            simp [processLines, hpre, hdone, hd, hp, he, hout, ih]
          | some s =>
            by_cases hlen : 0 < s.length
            · have hout : dataLineOut parse line = some s := by
                simp [dataLineOut, hpre, hdone, hp, he, hlen]
              simp [processLines, hpre, hdone, hd, hp, he, hlen, hout, ih]
            · have hout : dataLineOut parse line = none := by
                simp [dataLineOut, hpre, hdone, hp, he, hlen]
              simp [processLines, hpre, hdone, hd, hp, he, hlen, hout, ih]
    · have hd : isDoneLine line = false := by
        simp [isDoneLine, hpre]
      have hout : dataLineOut parse line = none := by
        simp [dataLineOut, hpre]
      simp [processLines, hpre, hd, hout, ih]

/-- C8: the SSE demultiplexer of `callGeminiLLMStream` skips (never aborts
on) data lines whose JSON payload fails to parse, and its output chunk
sequence is exactly, in arrival order, the extracted first-candidate
first-part text fields of the well-formed data lines that precede the
first [DONE] sentinel — the sentinel closes the stream, so lines and
chunks after it contribute nothing.  The theorem holds for every
`JSON.parse` oracle and every chunking of the upstream bytes. -/
theorem claim_C8 (parse : List Char → Option Json) (chunks : List (List Char)) :
    demuxChunks parse chunks =
      ((chunks.map (splitOnChar '\n')).flatten.takeWhile
        (fun l => !isDoneLine l)).filterMap (dataLineOut parse) := by
  induction chunks with
  | nil => rfl
  | cons c cs ih =>
    rw [List.map_cons, List.flatten_cons]
    by_cases hall : (splitOnChar '\n' c).all (fun l => !isDoneLine l)
    · have h2 : (processLines parse (splitOnChar '\n' c)).2 = false := by
        rw [processLines_spec, hall]
        rfl
      have h1 : (processLines parse (splitOnChar '\n' c)).1 =
          ((splitOnChar '\n' c).takeWhile (fun l => !isDoneLine l)).filterMap
            (dataLineOut parse) := by
        rw [processLines_spec]
      have hta : (splitOnChar '\n' c).takeWhile (fun l => !isDoneLine l) =
          splitOnChar '\n' c := by
        have := takeWhile_all_append (fun l => !isDoneLine l) (splitOnChar '\n' c)
          [] hall
        simpa using this
      rw [demuxChunks, if_neg (by rw [h2]; exact Bool.false_ne_true), h1, ih,
        takeWhile_all_append _ _ _ hall, List.filterMap_append, hta]
    · have hall2 : (splitOnChar '\n' c).all (fun l => !isDoneLine l) = false :=
        Bool.eq_false_iff.mpr hall
      have h2 : (processLines parse (splitOnChar '\n' c)).2 = true := by
        rw [processLines_spec, hall2]
        rfl
      have h1 : (processLines parse (splitOnChar '\n' c)).1 =
          ((splitOnChar '\n' c).takeWhile (fun l => !isDoneLine l)).filterMap
            (dataLineOut parse) := by
        rw [processLines_spec]
      rw [demuxChunks, if_pos h2, h1, takeWhile_not_all_append _ _ _ hall2]

theorem pumpEvents_spec (chunks : List (List Char)) (fails : Bool) :
    pumpEvents chunks fails =
      chunks.map StreamEvent.messageChunk ++
        [if fails then .error streamFailMsg else .messageEnd] := by
  induction chunks with
  | nil => cases fails <;> rfl
  | cons c cs ih => rw [pumpEvents, ih, List.map_cons, List.cons_append]

/-- C9: every streaming chat turn's body is exactly one sources event, one
message_start, zero or more message_chunk events, and exactly one terminal
event — message_end or error — with nothing after the terminal one. -/
theorem claim_C9 (srcs : List SourceEntry) (chunks : List (List Char))
    (fails : Bool) :
    ∃ t, chatStreamEvents srcs chunks fails =
      .sources srcs :: .messageStart ::
        (chunks.map StreamEvent.messageChunk ++ [t]) ∧
      (t = .messageEnd ∨ t = .error streamFailMsg) := by
  refine ⟨if fails then .error streamFailMsg else .messageEnd, ?_, ?_⟩
  · rw [chatStreamEvents, pumpEvents_spec]
  · cases fails
    · exact Or.inl rfl
    · exact Or.inr rfl

/-- Witness for C4 at a concrete input. -/
theorem claim_C4_witness :
    (0 < 4 ∧ jsTrim "hi".toList ≠ [] ∧ 1 ≤ 1) ∧
    ((generateEmbeddings true 4 (.ok ⟨"hi".toList, 1⟩) none true none).result =
        .ok (pageDocs (splitIntoPages "hi".toList 1)) ∧
      (generateEmbeddings true 4 (.ok ⟨"hi".toList, 1⟩) none true none).result =
        (generateEmbeddings true 4 (.ok ⟨"hi".toList, 1⟩) none false none).result ∧
      (generateEmbeddings true 4 (.ok ⟨"hi".toList, 1⟩) none true none).globalIndex =
        some (pageDocs (splitIntoPages "hi".toList 1)) ∧
      (generateEmbeddings true 4 (.ok ⟨"hi".toList, 1⟩) none true none).persistFailLogged =
        true) :=
  ⟨⟨by decide, by decide, by decide⟩,
   claim_C4 4 ⟨"hi".toList, 1⟩ none (by decide) (by decide) (by decide)⟩

end PdfRag
